import Mathlib

/-
Verification of the catprinter text-to-bitmap pipeline and print-job
orchestration, shallowly embedded from src/catprinter/cli.py and
src/print_text.py.  Strings are modelled as lists of characters; the
font-metric calls (PIL textbbox) are modelled as abstract measure
functions passed as parameters; the filesystem and BLE transport are
modelled as abstract environments.
-/

namespace CatPrinter

/-- Python strings are modelled as lists of characters. -/
abbrev PyStr := List Char

/-- The whitespace characters recognised by Python str.strip / str.split. -/
def pyIsSpace (c : Char) : Bool :=
  c = ' ' || c = '\t' || c = '\n' || c = '\r' || c = '\x0b' || c = '\x0c'

/-- Python str.strip(): drop whitespace from both ends. -/
def pyStrip (l : PyStr) : PyStr :=
  ((l.dropWhile pyIsSpace).reverse.dropWhile pyIsSpace).reverse

/-- Truthiness test used by the code: not line.strip(), i.e. the line is
blank (empty after trimming). -/
def isBlank (l : PyStr) : Bool := (pyStrip l).isEmpty

/-- Worker for Python str.split(sep) with an explicit single-character
separator: every separator occurrence ends the current chunk, so
consecutive separators yield empty chunks, exactly as in Python. -/
def splitChAux (sep : Char) : PyStr → PyStr → List PyStr
  | [], acc => [acc.reverse]
  | c :: cs, acc =>
    if c = sep then acc.reverse :: splitChAux sep cs []
    else splitChAux sep cs (c :: acc)

/-- Python str.split(sep) for a single-character separator. -/
def pySplit (sep : Char) (l : PyStr) : List PyStr := splitChAux sep l []

/-- text.split(chr(32)) as used by wrap_text_to_width (cli.py line 65). -/
def pySplitSpace (l : PyStr) : List PyStr := pySplit ' ' l

/-- text_content.split(newline) as used at cli.py line 90. -/
def pySplitLines (l : PyStr) : List PyStr := pySplit '\n' l

/-- Python sep.join(parts) for a single-character separator. -/
def joinWith (sep : Char) : List PyStr → PyStr
  | [] => []
  | [w] => w
  | w :: x :: ws => w ++ sep :: joinWith sep (x :: ws)

/-- The space join used by wrap_text_to_width (cli.py lines 71, 80, 85). -/
def joinSp (l : List PyStr) : PyStr := joinWith ' ' l

/-- The loop body of wrap_text_to_width (cli.py lines 69-87): words still to
process, the current-line buffer, and the accumulated output lines.  The
measure parameter models temp_draw.textbbox width for the resolved font. -/
def wrapLoop (measure : PyStr → Int) (maxW : Int) :
    List PyStr → List PyStr → List PyStr → List PyStr
  | [], current, lines =>
    if current = [] then lines else lines ++ [joinSp current]
  | w :: ws, current, lines =>
    if measure (joinSp (current ++ [w])) ≤ maxW ∨ current = [] then
      wrapLoop measure maxW ws (current ++ [w]) lines
    else
      wrapLoop measure maxW ws [w]
        (lines ++ (if current = [] then [] else [joinSp current]))

/-- wrap_text_to_width (cli.py lines 64-87): split the text on single
spaces and run the greedy loop with an empty buffer. -/
def wrap_text_to_width (measure : PyStr → Int) (maxW : Int) (text : PyStr) :
    List PyStr :=
  wrapLoop measure maxW (pySplitSpace text) [] []

/-- One step of the greedy reference algorithm of the specification
(section 4.2): state is (completed lines, current buffer). -/
def greedyStep (measure : PyStr → Int) (maxW : Int)
    (st : List PyStr × List PyStr) (tok : PyStr) : List PyStr × List PyStr :=
  if measure (joinSp (st.2 ++ [tok])) ≤ maxW ∨ st.2 = [] then
    (st.1, st.2 ++ [tok])
  else
    (st.1 ++ [joinSp st.2], [tok])

/-- Final flush of the greedy reference algorithm. -/
def finishWrap (st : List PyStr × List PyStr) : List PyStr :=
  if st.2 = [] then st.1 else st.1 ++ [joinSp st.2]

/-- The greedy reference wrap of the specification (section 4.2), written
as a left fold over the token sequence followed by the final flush. -/
def greedyWrapSpec (measure : PyStr → Int) (maxW : Int) (toks : List PyStr) :
    List PyStr :=
  finishWrap (toks.foldl (greedyStep measure maxW) ([], []))

/-- The per-original-line loop of convert_text_to_image (cli.py lines
94-101): a blank line contributes one empty wrapped line, any other line
contributes its wrap. -/
def processLines (measure : PyStr → Int) (maxW : Int) : List PyStr → List PyStr
  | [] => []
  | l :: ls =>
    (if isBlank l then [([] : PyStr)] else wrap_text_to_width measure maxW l)
      ++ processLines measure maxW ls

/-- Per-line height measurement (cli.py lines 105-111): blank lines get the
font size, other lines get the measured bbox height. -/
def lineHeight (measureH : PyStr → Int) (fontSize : Int) (l : PyStr) : Int :=
  if isBlank l then fontSize else measureH l

/-- total_height at cli.py line 114: sum of line heights plus five pixels
of spacing between consecutive lines. -/
def totalHeight (measureH : PyStr → Int) (fontSize : Int)
    (lines : List PyStr) : Int :=
  (lines.map (lineHeight measureH fontSize)).sum + ((lines.length : Int) - 1) * 5

/-- img_height at cli.py line 116: twenty pixels of padding, floored at
fifty pixels. -/
def imgHeight (measureH : PyStr → Int) (fontSize : Int)
    (lines : List PyStr) : Int :=
  max (totalHeight measureH fontSize lines + 20) 50

/-- convert_text_to_image (cli.py lines 18-137) up to the geometry of the
produced raster: strip the whole file content, fail (return False, here
none) on empty text, otherwise wrap every line against width - 20 and
compute the image dimensions.  The result is (img_width, img_height,
wrapped_lines). -/
def convert_text_to_image (measureW measureH : PyStr → Int)
    (fontSize width : Int) (content : PyStr) :
    Option (Int × Int × List PyStr) :=
  let text := pyStrip content
  if text.isEmpty then none
  else
    let wrapped := processLines measureW (width - 20) (pySplitLines text)
    some (width, imgHeight measureH fontSize wrapped, wrapped)

/-- Arguments and stage outcomes of one main_text run (cli.py lines
140-204).  convertOk is the boolean result of convert_text_to_image,
printOk tells whether the read/encode/transmit block raises. -/
structure TextArgs where
  fileExists : Bool
  hasOutputArg : Bool
  keep_image : Bool
  convertOk : Bool
  printOk : Bool

/-- main_text control flow (cli.py lines 140-204): result is (job
succeeded, the output image path exists after the run).  The temporary
file (mkstemp, line 162) exists as soon as it is created; the finally
block (lines 200-204) deletes it unless keep_image is set or an explicit
output path was given.  Both sys.exit paths inside the try block flow
through the finally block, as in Python. -/
def main_text (a : TextArgs) : Bool × Bool :=
  if a.fileExists = false then (false, false)
  else
    let temp_file := !a.hasOutputArg
    let exists0 := if temp_file then true else a.convertOk
    let success := a.convertOk && a.printOk
    let existsAfter :=
      if temp_file && !a.keep_image && exists0 then false else exists0
    (success, existsAfter)

/-- Value of one hexadecimal digit, as accepted by Python int(s, 16). -/
def hexDigitVal (c : Char) : Option Nat :=
  if '0' ≤ c ∧ c ≤ '9' then some (c.toNat - '0'.toNat)
  else if 'a' ≤ c ∧ c ≤ 'f' then some (c.toNat - 'a'.toNat + 10)
  else if 'A' ≤ c ∧ c ≤ 'F' then some (c.toNat - 'A'.toNat + 10)
  else none

/-- Accumulating worker for int(s, 16) on a plain digit string. -/
def pyIntHexAux : PyStr → Nat → Option Nat
  | [], acc => some acc
  | c :: cs, acc =>
    match hexDigitVal c with
    | some d => pyIntHexAux cs (acc * 16 + d)
    | none => none

/-- Python int(s, 16) restricted to plain nonempty hex-digit strings,
which covers every energy argument this development evaluates. -/
def pyIntHex (l : PyStr) : Option Nat :=
  if l = [] then none else pyIntHexAux l 0

/-- Python str.removeprefix applied to the two characters zero and x, as
in the energy argument parser (cli.py line 221). -/
def removePrefix0x (l : PyStr) : PyStr :=
  if (['0', 'x'] : PyStr).isPrefixOf l then l.drop 2 else l

/-- The argparse type function for the energy option (cli.py line 221):
lambda h, int of h.removeprefix, base sixteen.  A parse failure makes
argparse reject the invocation. -/
def parse_energy (l : PyStr) : Option Nat := pyIntHex (removePrefix0x l)

/-- The energy domain stated by the option help text and the spec. -/
def validEnergy (e : Nat) : Bool := e ≤ 0xFFFF

/-- Terminal outcome of one main_image run. -/
inductive ImgResult where
  | argError
  | fileNotFound
  | printError
  | done
deriving DecidableEq

/-- Environment of one main_image run: does the input file exist, does
read_img succeed, does cmds_print_img raise for a given energy, does the
BLE transmission succeed. -/
structure ImgEnv where
  fileExists : Bool
  readImgOk : Bool
  encodeOk : Nat → Bool
  transmitOk : Bool

/-- main_image control flow (cli.py lines 207-263): parse the energy
argument, check the file, read the image, then call cmds_print_img with
the parsed energy, then transmit.  The second component records the
energy value with which the command encoder is invoked (none when the run
aborts before the encoder is reached).  There is no range check on the
energy anywhere on this path. -/
def main_image (env : ImgEnv) (energyArg : PyStr) : ImgResult × Option Nat :=
  match parse_energy energyArg with
  | none => (ImgResult.argError, none)
  | some e =>
    if env.fileExists = false then (ImgResult.fileNotFound, none)
    else if env.readImgOk = false then (ImgResult.printError, none)
    else if env.encodeOk e = false then (ImgResult.printError, some e)
    else if env.transmitOk = false then (ImgResult.printError, some e)
    else (ImgResult.done, some e)

/-- Attempt to load one font candidate (cli.py lines 41-48): the path must
exist, and loading may fail, which the code swallows. -/
def candLoad {α : Type} (pathExists : PyStr → Bool) (load : PyStr → Option α)
    (p : PyStr) : Option α :=
  if pathExists p then load p else none

/-- The font-candidate loop of cli.py lines 41-48: first existing path
that loads wins; load failures fall through to the next candidate. -/
def findFontCli {α : Type} (pathExists : PyStr → Bool)
    (load : PyStr → Option α) : List PyStr → Option α
  | [] => none
  | p :: ps =>
    if pathExists p then
      match load p with
      | some f => some f
      | none => findFontCli pathExists load ps
    else findFontCli pathExists load ps

/-- The candidate list of cli.py lines 32-37. -/
def fontPathsCli : List PyStr :=
  [("/System/Library/Fonts/Helvetica.ttc").toList,
   ("/System/Library/Fonts/Arial.ttf").toList,
   ("/usr/share/fonts/truetype/liberation/LiberationSans-Regular.ttf").toList,
   ("C:\\Windows\\Fonts\\arial.ttf").toList]

/-- Font resolution of cli.py lines 29-57: run the loop and fall back to
the built-in default font when nothing loads.  Total: never fails. -/
def resolveFontCli {α : Type} (pathExists : PyStr → Bool)
    (load : PyStr → Option α) (default : α) : α :=
  (findFontCli pathExists load fontPathsCli).getD default

/-- Lowercasing used by the emoji test in print_text.py line 43. -/
def toLowerStr (l : PyStr) : PyStr := l.map Char.toLower

/-- Python substring containment test. -/
def containsSub (needle hay : PyStr) : Bool :=
  hay.tails.any (fun t => needle.isPrefixOf t)

/-- print_text.py line 43: the candidate counts as an emoji font when its
lowercased path contains emoji or color. -/
def isEmojiPath (p : PyStr) : Bool :=
  containsSub ("emoji").toList (toLowerStr p)
    || containsSub ("color").toList (toLowerStr p)

/-- First defined of two optional values. -/
def optFirst {α : Type} (a b : Option α) : Option α :=
  match a with
  | some x => some x
  | none => b

/-- Loadable emoji-flagged candidate (print_text.py lines 40-45). -/
def emojiLoad {α : Type} (pathExists : PyStr → Bool) (load : PyStr → Option α)
    (p : PyStr) : Option α :=
  if pathExists p && isEmojiPath p then load p else none

/-- Loadable regular candidate (print_text.py lines 40-49). -/
def regLoad {α : Type} (pathExists : PyStr → Bool) (load : PyStr → Option α)
    (p : PyStr) : Option α :=
  if pathExists p && !isEmojiPath p then load p else none

/-- The candidate loop of print_text.py lines 39-51: the emoji slot is
overwritten on every emoji hit, the regular slot keeps only the first
hit; load failures and missing paths fall through. -/
def findFontsPT {α : Type} (pathExists : PyStr → Bool)
    (load : PyStr → Option α) :
    List PyStr → Option α → Option α → Option α × Option α
  | [], font, emoji => (font, emoji)
  | p :: ps, font, emoji =>
    if pathExists p then
      match load p with
      | some f =>
        if isEmojiPath p then findFontsPT pathExists load ps font (some f)
        else
          match font with
          | none => findFontsPT pathExists load ps (some f) emoji
          | some g => findFontsPT pathExists load ps (some g) emoji
      | none => findFontsPT pathExists load ps font emoji
    else findFontsPT pathExists load ps font emoji

/-- The candidate list of print_text.py lines 26-34. -/
def fontPathsPT : List PyStr :=
  [("/System/Library/Fonts/Apple Color Emoji.ttc").toList,
   ("/System/Library/Fonts/Helvetica.ttc").toList,
   ("/System/Library/Fonts/Arial.ttf").toList,
   ("/usr/share/fonts/truetype/noto/NotoColorEmoji.ttf").toList,
   ("/usr/share/fonts/truetype/liberation/LiberationSans-Regular.ttf").toList,
   ("C:\\Windows\\Fonts\\seguiemj.ttf").toList,
   ("C:\\Windows\\Fonts\\arial.ttf").toList]

/-- Font resolution of print_text.py lines 23-63: prefer the emoji slot,
then the regular slot, then the built-in default.  Total: never fails. -/
def resolveFontPT {α : Type} (pathExists : PyStr → Bool)
    (load : PyStr → Option α) (default : α) : α :=
  let st := findFontsPT pathExists load fontPathsPT none none
  match st.2 with
  | some f => f
  | none =>
    match st.1 with
    | some f => f
    | none => default

/-- A concrete monotone width measure (seven pixels per character) used to
evaluate the pipeline on concrete inputs. -/
def cLen7 (s : PyStr) : Int := 7 * (s.length : Int)

/-- Detects two consecutive spaces inside a line. -/
def hasDoubleSpace : PyStr → Bool
  | c1 :: c2 :: rest => (c1 = ' ' && c2 = ' ') || hasDoubleSpace (c2 :: rest)
  | _ => false

/- ---------------------------------------------------------------------
Helper lemmas about the embedded primitives.
--------------------------------------------------------------------- -/

theorem cLen7_nonneg (s : PyStr) : 0 ≤ cLen7 s :=
  mul_nonneg (by norm_num) (Int.natCast_nonneg _)

theorem joinWith_append_singleton (sep : Char) (t : PyStr) :
    ∀ (l : List PyStr), l ≠ [] →
      joinWith sep (l ++ [t]) = joinWith sep l ++ sep :: t := by
  intro l
  induction l with
  | nil => intro h; exact absurd rfl h
  | cons x xs ih =>
    intro _
    cases xs with
    | nil => simp [joinWith]
    | cons y ys =>
      have h2 := ih (by simp)
      simp only [List.cons_append] at h2 ⊢
      simp only [joinWith] at h2 ⊢
      rw [h2, List.append_assoc]
      simp

theorem joinSp_append_singleton (l : List PyStr) (t : PyStr) (h : l ≠ []) :
    joinSp (l ++ [t]) = joinSp l ++ ' ' :: t :=
  joinWith_append_singleton ' ' t l h

theorem joinSp_singleton (w : PyStr) : joinSp [w] = w := rfl

theorem splitChAux_ne_nil (sep : Char) :
    ∀ (l acc : PyStr), splitChAux sep l acc ≠ [] := by
  intro l
  induction l with
  | nil => intro acc; simp [splitChAux]
  | cons c cs ih =>
    intro acc
    by_cases hc : c = sep
    · simp [splitChAux, hc]
    · simp only [splitChAux, if_neg hc]
      exact ih (c :: acc)

theorem joinWith_splitChAux (sep : Char) :
    ∀ (l acc : PyStr), joinWith sep (splitChAux sep l acc) = acc.reverse ++ l := by
  intro l
  induction l with
  | nil => intro acc; simp [splitChAux, joinWith]
  | cons c cs ih =>
    intro acc
    by_cases hc : c = sep
    · simp only [splitChAux, if_pos hc]
      rcases hsp : splitChAux sep cs [] with _ | ⟨g, gs⟩
      · exact absurd hsp (splitChAux_ne_nil sep cs [])
      · have h2 := ih []
        rw [hsp] at h2
        simp only [joinWith]
        rw [h2, hc]
        simp
    · simp only [splitChAux, if_neg hc]
      rw [ih (c :: acc)]
      simp

/- ---------------------------------------------------------------------
Helper lemmas about the wrap loop.
--------------------------------------------------------------------- -/

theorem wrapLoop_shift (m : PyStr → Int) (W : Int) :
    ∀ (ws current lines : List PyStr),
      wrapLoop m W ws current lines = lines ++ wrapLoop m W ws current [] := by
  intro ws
  induction ws with
  | nil =>
    intro current lines
    by_cases h : current = [] <;> simp [wrapLoop, h]
  | cons w ws ih =>
    intro current lines
    by_cases h : m (joinSp (current ++ [w])) ≤ W ∨ current = []
    · simp only [wrapLoop, if_pos h]
      exact ih _ _
    · have h2 : current ≠ [] := fun hc => h (Or.inr hc)
      simp only [wrapLoop, if_neg h, if_neg h2]
      rw [ih [w] (lines ++ [joinSp current]), ih [w] ([] ++ [joinSp current])]
      simp [List.append_assoc]

theorem wrapLoop_eq_foldl (m : PyStr → Int) (W : Int) :
    ∀ (ws current lines : List PyStr),
      wrapLoop m W ws current lines
        = finishWrap (ws.foldl (greedyStep m W) (lines, current)) := by
  intro ws
  induction ws with
  | nil =>
    intro current lines
    by_cases h : current = [] <;> simp [wrapLoop, finishWrap, h]
  | cons w ws ih =>
    intro current lines
    by_cases h : m (joinSp (current ++ [w])) ≤ W ∨ current = []
    · simp only [wrapLoop, if_pos h, List.foldl_cons]
      rw [ih]
      have hstep : greedyStep m W (lines, current) w = (lines, current ++ [w]) := by
        simp [greedyStep, if_pos h]
      rw [hstep]
    · have h2 : current ≠ [] := fun hc => h (Or.inr hc)
      simp only [wrapLoop, if_neg h, if_neg h2, List.foldl_cons]
      rw [ih]
      have hstep : greedyStep m W (lines, current) w
          = (lines ++ [joinSp current], [w]) := by
        simp only [greedyStep]
        rw [if_neg h]
      rw [hstep]

theorem wrap_eq_greedy (m : PyStr → Int) (W : Int) (text : PyStr) :
    wrap_text_to_width m W text = greedyWrapSpec m W (pySplitSpace text) := by
  unfold wrap_text_to_width greedyWrapSpec
  exact wrapLoop_eq_foldl m W _ [] []

theorem wrapLoop_groups (m : PyStr → Int) (W : Int) :
    ∀ (ws current : List PyStr), ∃ gs : List (List PyStr),
      wrapLoop m W ws current [] = gs.map joinSp
      ∧ gs.flatten = current ++ ws
      ∧ ∀ g ∈ gs, g ≠ [] := by
  intro ws
  induction ws with
  | nil =>
    intro current
    by_cases h : current = []
    · exact ⟨[], by simp [wrapLoop, h], by simp [h], by simp⟩
    · exact ⟨[current], by simp [wrapLoop, h], by simp, by simp [h]⟩
  | cons w ws ih =>
    intro current
    by_cases h : m (joinSp (current ++ [w])) ≤ W ∨ current = []
    · obtain ⟨gs, h1, h2, h3⟩ := ih (current ++ [w])
      refine ⟨gs, ?_, ?_, h3⟩
      · simp only [wrapLoop, if_pos h]
        exact h1
      · rw [h2, List.append_assoc]
        simp
    · have hc : current ≠ [] := fun hc => h (Or.inr hc)
      obtain ⟨gs, g1, g2, g3⟩ := ih [w]
      refine ⟨current :: gs, ?_, ?_, ?_⟩
      · simp only [wrapLoop, if_neg h, if_neg hc]
        rw [wrapLoop_shift]
        simp [g1]
      · simp [g2]
      · intro g hg
        rcases List.mem_cons.mp hg with rfl | hg
        · exact hc
        · exact g3 g hg

theorem wrap_ne_nil (m : PyStr → Int) (W : Int) (text : PyStr) :
    wrap_text_to_width m W text ≠ [] := by
  obtain ⟨gs, h1, h2, _⟩ := wrapLoop_groups m W (pySplitSpace text) []
  unfold wrap_text_to_width
  rw [h1]
  intro hmap
  have hgs : gs = [] := List.map_eq_nil_iff.mp hmap
  rw [hgs] at h2
  exact splitChAux_ne_nil ' ' text [] (by simpa using h2.symm)

theorem wrapLoop_own_line (m : PyStr → Int) (W : Int)
    (hmono : ∀ s t : PyStr, m s ≤ m (s ++ ' ' :: t) ∧ m t ≤ m (s ++ ' ' :: t)) :
    ∀ (ws current : List PyStr) (w : PyStr), W < m w →
      (w ∈ ws ∨ current = [w]) → w ∈ wrapLoop m W ws current [] := by
  intro ws
  induction ws with
  | nil =>
    intro current w _ hmem
    rcases hmem with h | h
    · simp at h
    · subst h
      simp [wrapLoop, joinSp_singleton]
  | cons t ts ih =>
    intro current w hw hmem
    by_cases hacc : m (joinSp (current ++ [t])) ≤ W ∨ current = []
    · simp only [wrapLoop, if_pos hacc]
      rcases hmem with hmem | hmem
      · rcases List.mem_cons.mp hmem with rfl | hmem
        · have hcur : current = [] := by
            by_contra hne
            rcases hacc with hle | hc
            · rw [joinSp_append_singleton current w hne] at hle
              have := (hmono (joinSp current) w).2
              omega
            · exact hne hc
          subst hcur
          exact ih [w] w hw (Or.inr rfl)
        · exact ih (current ++ [t]) w hw (Or.inl hmem)
      · exfalso
        subst hmem
        rcases hacc with hle | hc
        · rw [joinSp_append_singleton [w] t (by simp), joinSp_singleton] at hle
          have := (hmono w t).1
          omega
        · simp at hc
    · have hcur : current ≠ [] := fun hc => hacc (Or.inr hc)
      simp only [wrapLoop, if_neg hacc, if_neg hcur, List.nil_append]
      rw [wrapLoop_shift]
      rcases hmem with hmem | hmem
      · rcases List.mem_cons.mp hmem with rfl | hmem
        · exact List.mem_append_right _ (ih [w] w hw (Or.inr rfl))
        · exact List.mem_append_right _ (ih [t] w hw (Or.inl hmem))
      · subst hmem
        exact List.mem_append_left _ (by simp [joinSp_singleton])

theorem wrapLoop_all_wide (m : PyStr → Int) (W : Int) (hneg : ∀ s, W < m s) :
    ∀ (ws : List PyStr) (x : PyStr), wrapLoop m W ws [x] [] = x :: ws := by
  intro ws
  induction ws with
  | nil => intro x; simp [wrapLoop, joinSp_singleton]
  | cons w ws ih =>
    intro x
    have hcond : ¬ (m (joinSp ([x] ++ [w])) ≤ W ∨ ([x] : List PyStr) = []) := by
      push_neg
      exact ⟨hneg _, by simp⟩
    simp only [wrapLoop, if_neg hcond, if_neg (by simp : ¬ ([x] : List PyStr) = [])]
    rw [wrapLoop_shift, ih w]
    simp [joinSp_singleton]

/- ---------------------------------------------------------------------
Claim theorems.
--------------------------------------------------------------------- -/

/-- Claim C1 (code bug evidence): the image entry point performs no range
check on the energy argument.  The argparse type function parses the
string zero x one zero zero zero zero to 65536, which is outside the
documented domain up to 0xFFFF, yet main_image invokes the command
encoder with exactly this energy and the job runs to completion instead
of aborting with an input error before the encoding stage. -/
theorem energy_out_of_range_reaches_encoder :
    parse_energy ("0x10000").toList = some 65536
    ∧ validEnergy 65536 = false
    ∧ main_image ⟨true, true, fun _ => true, true⟩ ("0x10000").toList
        = (ImgResult.done, some 65536) := by
  decide

/-- Claim C2: for every line, font measure and positive pixel budget, the
code wrap equals the greedy reference algorithm of the specification;
the output lines are space-joins of a partition of the token sequence
into nonempty groups, so no token is ever split character-wise; and,
for any measure that is monotone under joining (as real glyph metrics
are), a token wider than the budget appears as a wrapped line of its
own, with no exception raised (the embedding is a total function). -/
theorem wrap_matches_greedy_reference (m : PyStr → Int) (W : Int)
    (_hpos : 0 < W) (line : PyStr) :
    wrap_text_to_width m W line = greedyWrapSpec m W (pySplitSpace line)
    ∧ (∃ gs : List (List PyStr),
        wrap_text_to_width m W line = gs.map joinSp
        ∧ gs.flatten = pySplitSpace line
        ∧ ∀ g ∈ gs, g ≠ [])
    ∧ ((∀ s t : PyStr, m s ≤ m (s ++ ' ' :: t) ∧ m t ≤ m (s ++ ' ' :: t)) →
        ∀ w ∈ pySplitSpace line, W < m w →
          w ∈ wrap_text_to_width m W line) := by
  refine ⟨wrap_eq_greedy m W line, ?_, ?_⟩
  · obtain ⟨gs, h1, h2, h3⟩ := wrapLoop_groups m W (pySplitSpace line) []
    exact ⟨gs, h1, by simpa using h2, h3⟩
  · intro hmono w hw hwide
    exact wrapLoop_own_line m W hmono (pySplitSpace line) [] w hwide (Or.inl hw)

theorem wrap_matches_greedy_reference_witness :
    wrap_text_to_width cLen7 20 ("aa bb").toList
      = greedyWrapSpec cLen7 20 (pySplitSpace ("aa bb").toList) :=
  (wrap_matches_greedy_reference cLen7 20 (by decide) (("aa bb").toList)).1

/-- Claim C3 counterexample: the code splits with text.split on a single
space, which does emit empty-string tokens between consecutive
delimiters; on the line a-space-space-b the token list contains the
empty string. -/
theorem split_emits_empty_token :
    hasDoubleSpace ("a  b").toList = true
    ∧ pySplitSpace ("a  b").toList = [['a'], [], ['b']]
    ∧ ([] : PyStr) ∈ pySplitSpace ("a  b").toList := by
  decide

/-- Claim C3 amended: every input line containing two or more consecutive
spaces yields at least one empty-string token from the splitting step;
the empty tokens are preserved by the space join, so joining the token
list reproduces the original line exactly and intra-line spacing is
never lost. -/
theorem split_empty_tokens_amended :
    (∀ l : PyStr, hasDoubleSpace l = true → ([] : PyStr) ∈ pySplitSpace l)
    ∧ ∀ l : PyStr, joinSp (pySplitSpace l) = l := by
  constructor
  · have haux : ∀ (l acc : PyStr), hasDoubleSpace l = true →
        ([] : PyStr) ∈ splitChAux ' ' l acc := by
      intro l
      induction l with
      | nil => intro acc h; simp [hasDoubleSpace] at h
      | cons c1 rest ih =>
        cases rest with
        | nil => intro acc h; simp [hasDoubleSpace] at h
        | cons c2 rest2 =>
          intro acc h
          simp only [hasDoubleSpace, Bool.or_eq_true, Bool.and_eq_true,
            decide_eq_true_eq] at h
          by_cases hc1 : c1 = ' '
          · simp only [splitChAux, if_pos hc1]
            rcases h with ⟨_, h2⟩ | h
            · simp [splitChAux, if_pos h2]
            · exact List.mem_cons_of_mem _ (ih [] h)
          · have h' : hasDoubleSpace (c2 :: rest2) = true := by
              rcases h with ⟨h1, _⟩ | h
              · exact absurd h1 hc1
              · exact h
            simp only [splitChAux, if_neg hc1]
            exact ih (c1 :: acc) h'
    exact fun l h => haux l [] h
  · intro l
    have := joinWith_splitChAux ' ' l []
    simpa [pySplitSpace, pySplit, joinSp] using this

theorem split_empty_tokens_amended_witness :
    ([] : PyStr) ∈ pySplitSpace ("a  b").toList :=
  split_empty_tokens_amended.1 (("a  b").toList) (by decide)

/-- Claim C4 counterexample: with target width ten the available width is
ten minus twenty, which is not positive, yet the pipeline does not fail
fast: convert_text_to_image succeeds and produces a raster, placing
each token on its own line. -/
theorem degenerate_width_still_succeeds :
    ((10 : Int) - 2 * 10 ≤ 0)
    ∧ convert_text_to_image cLen7 cLen7 16 10 ("hello world").toList
        = some (10, 95, [("hello").toList, ("world").toList]) := by
  decide

/-- Claim C4 amended: the code performs no available-width validation at
all.  Conversion fails exactly when the stripped text is empty, never
because of the width; and when the budget is below every measured
width (in particular for any nonpositive budget and nonnegative
measure) wrapping still succeeds, degenerating to one token per line.
Every call site fixes width 384, giving available width 364. -/
theorem no_availableWidth_failfast :
    (∀ (mw mh : PyStr → Int) (fs w : Int) (content : PyStr),
        convert_text_to_image mw mh fs w content = none
          ↔ (pyStrip content).isEmpty = true)
    ∧ ∀ (m : PyStr → Int) (W : Int) (line : PyStr),
        (∀ s, W < m s) → wrap_text_to_width m W line = pySplitSpace line := by
  constructor
  · intro mw mh fs w content
    unfold convert_text_to_image
    by_cases h : (pyStrip content).isEmpty <;> simp [h]
  · intro m W line hneg
    unfold wrap_text_to_width
    rcases htk : pySplitSpace line with _ | ⟨t, ts⟩
    · simp [wrapLoop]
    · have : wrapLoop m W (t :: ts) [] []
          = wrapLoop m W ts [t] [] := by
        simp [wrapLoop]
      rw [this, wrapLoop_all_wide m W hneg ts t]

theorem no_availableWidth_failfast_witness :
    wrap_text_to_width cLen7 (-10) ("a b").toList
      = pySplitSpace ("a b").toList :=
  no_availableWidth_failfast.2 cLen7 (-10) (("a b").toList)
    (fun s => lt_of_lt_of_le (by norm_num) (cLen7_nonneg s))

/-- Claim C5: in a text job whose input file exists and which was given no
explicit output path, the temporary image file no longer exists after
the run whenever the keep-image flag is off, regardless of whether
conversion or printing succeeded or failed, and still exists whenever
the keep-image flag is on. -/
theorem main_text_temp_cleanup (a : TextArgs)
    (hfile : a.fileExists = true) (hout : a.hasOutputArg = false) :
    (main_text a).2 = a.keep_image := by
  rcases a with ⟨f, o, k, c, p⟩
  simp only at hfile hout
  subst hfile hout
  cases k <;> simp [main_text]

theorem main_text_temp_cleanup_witness :
    (main_text ⟨true, false, false, false, true⟩).2 = false :=
  main_text_temp_cleanup ⟨true, false, false, false, true⟩ rfl rfl

/-- Claim C7: the per-line processing loop is exactly a concat-map in
which a blank input line contributes the single empty wrapped line and
any other line contributes its wrap, so every blank line yields exactly
one empty wrapped line at its position; in particular two text lines
separated by one blank line yield the three wrapped lines line1, empty,
line2. -/
theorem blank_lines_preserved :
    (∀ (m : PyStr → Int) (W : Int) (ls : List PyStr),
        processLines m W ls
          = ls.flatMap (fun l => if isBlank l then [([] : PyStr)]
              else wrap_text_to_width m W l))
    ∧ processLines cLen7 364 [("hello").toList, [], ("world").toList]
        = [("hello").toList, [], ("world").toList] := by
  constructor
  · intro m W ls
    induction ls with
    | nil => simp [processLines]
    | cons l ls ih => simp [processLines, ih]
  · decide

/-- Claim C9: with the font measure and font size fixed (both producing
nonnegative heights, as real glyph metrics and a positive configured
font size do), appending any line, blank or not, to the wrapped-line
sequence never decreases the computed canvas height. -/
theorem canvas_height_monotone (mh : PyStr → Int) (fontSize : Int)
    (hm : ∀ s, 0 ≤ mh s) (hf : 0 ≤ fontSize) (lines : List PyStr) (l : PyStr) :
    imgHeight mh fontSize lines ≤ imgHeight mh fontSize (lines ++ [l]) := by
  have hl : 0 ≤ lineHeight mh fontSize l := by
    unfold lineHeight
    split
    · exact hf
    · exact hm l
  have ht : totalHeight mh fontSize lines
      ≤ totalHeight mh fontSize (lines ++ [l]) := by
    simp only [totalHeight, List.map_append, List.sum_append, List.map_cons,
      List.map_nil, List.sum_cons, List.sum_nil, List.length_append,
      List.length_cons, List.length_nil]
    push_cast
    linarith
  unfold imgHeight
  exact max_le_max (by linarith) le_rfl

theorem canvas_height_monotone_witness :
    imgHeight cLen7 16 [("hi").toList]
      ≤ imgHeight cLen7 16 ([("hi").toList] ++ [[]]) :=
  canvas_height_monotone cLen7 16 cLen7_nonneg (by norm_num)
    [("hi").toList] []

/- ---------------------------------------------------------------------
Helper lemmas for the remaining claims.
--------------------------------------------------------------------- -/

theorem pySplit_ne_nil (sep : Char) (l : PyStr) : pySplit sep l ≠ [] :=
  splitChAux_ne_nil sep l []

theorem processLines_ne_nil (m : PyStr → Int) (W : Int) (ls : List PyStr)
    (h : ls ≠ []) : processLines m W ls ≠ [] := by
  cases ls with
  | nil => exact absurd rfl h
  | cons l ls =>
    simp only [processLines]
    intro happ
    rcases List.append_eq_nil.mp happ with ⟨h1, _⟩
    by_cases hb : isBlank l
    · simp [hb] at h1
    · simp only [if_neg hb] at h1
      exact wrap_ne_nil m W l h1

/-- Claim C6: whenever conversion succeeds, the wrapped-line sequence is
nonempty, the image width equals the target width exactly, and the
image height is the sum of the per-line measured heights plus five
pixels of spacing per gap plus twice the ten-pixel padding, floored at
fifty pixels. -/
theorem rendered_image_dimensions (mw mh : PyStr → Int) (fontSize width : Int)
    (content : PyStr) (w h : Int) (lines : List PyStr)
    (hconv : convert_text_to_image mw mh fontSize width content
      = some (w, h, lines)) :
    lines ≠ [] ∧ w = width
    ∧ h = max ((lines.map (lineHeight mh fontSize)).sum
          + ((lines.length : Int) - 1) * 5 + 2 * 10) 50 := by
  unfold convert_text_to_image at hconv
  by_cases hempty : (pyStrip content).isEmpty
  · simp [hempty] at hconv
  · simp only [hempty, Bool.false_eq_true, if_false, Option.some_inj,
      Prod.mk.injEq] at hconv
    obtain ⟨hw, hh, hl⟩ := hconv
    refine ⟨?_, hw.symm, ?_⟩
    · rw [← hl]
      exact processLines_ne_nil _ _ _ (pySplit_ne_nil '\n' (pyStrip content))
    · rw [← hh, ← hl]
      unfold imgHeight totalHeight
      congr 1

theorem rendered_image_dimensions_witness :
    ([("hi").toList] : List PyStr) ≠ [] ∧ (384 : Int) = 384
    ∧ (50 : Int) = max ((([("hi").toList] : List PyStr).map (lineHeight cLen7 16)).sum
        + ((([("hi").toList] : List PyStr).length : Int) - 1) * 5 + 2 * 10) 50 :=
  rendered_image_dimensions cLen7 cLen7 16 384 (("hi").toList) 384 50
    [("hi").toList] (by decide)

theorem optFirst_none_right {α : Type} (a : Option α) : optFirst a none = a := by
  cases a <;> rfl

theorem optFirst_none_left {α : Type} (b : Option α) : optFirst none b = b := rfl

theorem optFirst_optFirst_some {α : Type} (a : Option α) (f : α) (c : Option α) :
    optFirst (optFirst a (some f)) c = optFirst a (some f) := by
  cases a <;> rfl

theorem findFontCli_eq {α : Type} (pe : PyStr → Bool) (ld : PyStr → Option α) :
    ∀ ps : List PyStr,
      findFontCli pe ld ps = (ps.filterMap (candLoad pe ld)).head? := by
  intro ps
  induction ps with
  | nil => simp [findFontCli]
  | cons p ps ih =>
    cases hp : pe p with
    | true =>
      cases hl : ld p with
      | some f => simp [findFontCli, candLoad, hp, hl]
      | none => simp [findFontCli, candLoad, hp, hl, ih]
    | false => simp [findFontCli, candLoad, hp, ih]

theorem optFirst_getLast_cons {α : Type} (f : α) (xs : List α) (e : Option α) :
    optFirst ((f :: xs).getLast?) e = optFirst xs.getLast? (some f) := by
  cases xs with
  | nil => simp [optFirst]
  | cons y ys =>
    rw [List.getLast?_cons_cons]
    obtain ⟨z, hz⟩ : ∃ z, (y :: ys).getLast? = some z := by
      cases hzz : (y :: ys).getLast? with
      | some z => exact ⟨z, rfl⟩
      | none => exact absurd (List.getLast?_eq_none_iff.mp hzz) (by simp)
    rw [hz]
    rfl

theorem findFontsPT_eq {α : Type} (pe : PyStr → Bool) (ld : PyStr → Option α) :
    ∀ (ps : List PyStr) (f0 e0 : Option α),
      findFontsPT pe ld ps f0 e0
        = (optFirst f0 ((ps.filterMap (regLoad pe ld)).head?),
           optFirst ((ps.filterMap (emojiLoad pe ld)).getLast?) e0) := by
  intro ps
  induction ps with
  | nil =>
    intro f0 e0
    simp [findFontsPT, optFirst_none_right, optFirst_none_left]
  | cons p ps ih =>
    intro f0 e0
    cases hp : pe p with
    | true =>
      cases hl : ld p with
      | some f =>
        cases he : isEmojiPath p with
        | true =>
          have hre : regLoad pe ld p = none := by simp [regLoad, hp, he]
          have hem : emojiLoad pe ld p = some f := by simp [emojiLoad, hp, he, hl]
          have hstep : findFontsPT pe ld (p :: ps) f0 e0
              = findFontsPT pe ld ps f0 (some f) := by
            simp [findFontsPT, hp, hl, he]
          rw [hstep, ih]
          simp [List.filterMap_cons, hre, hem, optFirst_getLast_cons]
        | false =>
          have hre : regLoad pe ld p = some f := by simp [regLoad, hp, he, hl]
          have hem : emojiLoad pe ld p = none := by simp [emojiLoad, hp, he]
          have hstep : findFontsPT pe ld (p :: ps) f0 e0
              = findFontsPT pe ld ps (optFirst f0 (some f)) e0 := by
            cases f0 <;> simp [findFontsPT, hp, hl, he, optFirst]
          rw [hstep, ih]
          simp [List.filterMap_cons, hre, hem, optFirst_optFirst_some]
      | none =>
        have hre : regLoad pe ld p = none := by simp [regLoad, hl]
        have hem : emojiLoad pe ld p = none := by simp [emojiLoad, hl]
        have hstep : findFontsPT pe ld (p :: ps) f0 e0
            = findFontsPT pe ld ps f0 e0 := by
          simp [findFontsPT, hp, hl]
        rw [hstep, ih]
        simp [List.filterMap_cons, hre, hem]
    | false =>
      have hre : regLoad pe ld p = none := by simp [regLoad, hp]
      have hem : emojiLoad pe ld p = none := by simp [emojiLoad, hp]
      have hstep : findFontsPT pe ld (p :: ps) f0 e0
          = findFontsPT pe ld ps f0 e0 := by
        simp [findFontsPT, hp]
      rw [hstep, ih]
      simp [List.filterMap_cons, hre, hem]

/-- Claim C8: both font resolvers are total functions that never raise:
the cli resolver returns the first existing candidate that loads and
the print-text resolver prefers the last loadable emoji candidate, then
the first loadable regular candidate; load failures are skipped, and
when no candidate loads both degrade to the built-in default font
rather than signaling an error. -/
theorem font_resolution_never_fails {α : Type} (default : α)
    (pe : PyStr → Bool) (ld : PyStr → Option α) :
    resolveFontCli pe ld default
      = ((fontPathsCli.filterMap (candLoad pe ld)).head?).getD default
    ∧ resolveFontPT pe ld default
      = (optFirst ((fontPathsPT.filterMap (emojiLoad pe ld)).getLast?)
          ((fontPathsPT.filterMap (regLoad pe ld)).head?)).getD default
    ∧ resolveFontCli pe (fun _ => none) default = default
    ∧ resolveFontPT pe (fun _ => none) default = default := by
  refine ⟨?_, ?_, ?_, ?_⟩
  · simp [resolveFontCli, findFontCli_eq]
  · have h2 := findFontsPT_eq pe ld fontPathsPT none none
    unfold resolveFontPT
    rw [h2]
    simp only [optFirst_none_left, optFirst_none_right]
    rcases hE : (fontPathsPT.filterMap (emojiLoad pe ld)).getLast? with _ | f <;>
      rcases hR : (fontPathsPT.filterMap (regLoad pe ld)).head? with _ | g <;>
        simp [optFirst]
  · have hnone : ∀ ps : List PyStr,
        findFontCli pe (fun _ => (none : Option α)) ps = none := by
      intro ps
      induction ps with
      | nil => rfl
      | cons p ps ih => cases hp : pe p <;> simp [findFontCli, hp, ih]
    simp [resolveFontCli, hnone]
  · have hnone : ∀ (ps : List PyStr) (f0 e0 : Option α),
        findFontsPT pe (fun _ => (none : Option α)) ps f0 e0 = (f0, e0) := by
      intro ps
      induction ps with
      | nil => intro f0 e0; rfl
      | cons p ps ih => intro f0 e0; cases hp : pe p <;> simp [findFontsPT, hp, ih]
    simp [resolveFontPT, hnone]

theorem dropWhile_head?_not {α : Type} (p : α → Bool) :
    ∀ (l : List α) (c : α), (l.dropWhile p).head? = some c → p c = false := by
  intro l
  induction l with
  | nil => intro c h; simp at h
  | cons x xs ih =>
    intro c h
    cases hx : p x with
    | true =>
      rw [List.dropWhile_cons, if_pos (by simp [hx])] at h
      exact ih c h
    | false =>
      rw [List.dropWhile_cons, if_neg (by simp [hx])] at h
      have : x = c := by simpa using h
      rw [← this]
      exact hx

theorem dropWhile_getLast?_of_ne_nil {α : Type} (p : α → Bool) :
    ∀ l : List α, l.dropWhile p ≠ [] →
      (l.dropWhile p).getLast? = l.getLast? := by
  intro l
  induction l with
  | nil => intro h; simp at h
  | cons x xs ih =>
    intro h
    cases hx : p x with
    | true =>
      rw [List.dropWhile_cons, if_pos (by simp [hx])] at h ⊢
      have hxs : xs ≠ [] := by
        intro he
        rw [he] at h
        simp at h
      rw [ih h]
      cases xs with
      | nil => exact absurd rfl hxs
      | cons y ys => rw [List.getLast?_cons_cons]
    | false =>
      rw [List.dropWhile_cons, if_neg (by simp [hx])]

theorem pyStrip_head?_not_space (l : PyStr) (c : Char)
    (h : (pyStrip l).head? = some c) : pyIsSpace c = false := by
  unfold pyStrip at h
  rw [List.head?_reverse] at h
  have hk : (l.dropWhile pyIsSpace).reverse.dropWhile pyIsSpace ≠ [] := by
    intro he
    rw [he] at h
    simp at h
  rw [dropWhile_getLast?_of_ne_nil pyIsSpace _ hk, List.getLast?_reverse] at h
  exact dropWhile_head?_not pyIsSpace l c h

theorem pyStrip_getLast?_not_space (l : PyStr) (c : Char)
    (h : (pyStrip l).getLast? = some c) : pyIsSpace c = false := by
  unfold pyStrip at h
  rw [List.getLast?_reverse] at h
  exact dropWhile_head?_not pyIsSpace _ c h

theorem isBlank_false_of_mem (l : PyStr) (c : Char) (hc : c ∈ l)
    (hs : pyIsSpace c = false) : isBlank l = false := by
  have hmem : ∀ m : PyStr, c ∈ m → c ∈ m.dropWhile pyIsSpace := by
    intro m hm
    have hsplit := List.takeWhile_append_dropWhile (p := pyIsSpace) (l := m)
    rw [← hsplit] at hm
    rcases List.mem_append.mp hm with h | h
    · exact absurd (List.mem_takeWhile_imp h) (by simp [hs])
    · exact h
  have h1 : c ∈ l.dropWhile pyIsSpace := hmem l hc
  have h2 : c ∈ (l.dropWhile pyIsSpace).reverse.dropWhile pyIsSpace :=
    hmem _ (List.mem_reverse.mpr h1)
  have h3 : c ∈ ((l.dropWhile pyIsSpace).reverse.dropWhile pyIsSpace).reverse :=
    List.mem_reverse.mpr h2
  have h4 : pyStrip l ≠ [] := List.ne_nil_of_mem h3
  unfold isBlank
  cases hE : (pyStrip l).isEmpty with
  | true => exact absurd (List.isEmpty_iff.mp hE) h4
  | false => rfl

theorem splitChAux_head_group (sep : Char) :
    ∀ (l acc : PyStr), ∃ g,
      (splitChAux sep l acc).head? = some g ∧ ∀ a ∈ acc, a ∈ g := by
  intro l
  induction l with
  | nil =>
    intro acc
    exact ⟨acc.reverse, by simp [splitChAux], fun a h => List.mem_reverse.mpr h⟩
  | cons c cs ih =>
    intro acc
    by_cases hc : c = sep
    · exact ⟨acc.reverse, by simp [splitChAux, hc],
        fun a h => List.mem_reverse.mpr h⟩
    · obtain ⟨g, h1, h2⟩ := ih (c :: acc)
      exact ⟨g, by simp only [splitChAux, if_neg hc]; exact h1,
        fun a h => h2 a (List.mem_cons_of_mem c h)⟩

theorem pySplit_head_mem (sep : Char) (l : PyStr) (c : Char)
    (hh : l.head? = some c) (hc : c ≠ sep) :
    ∃ g, (pySplit sep l).head? = some g ∧ c ∈ g := by
  cases l with
  | nil => simp at hh
  | cons x xs =>
    have hx : x = c := by simpa using hh
    subst hx
    unfold pySplit
    simp only [splitChAux, if_neg hc]
    obtain ⟨g, h1, h2⟩ := splitChAux_head_group sep xs [x]
    exact ⟨g, h1, h2 x (by simp)⟩

theorem splitChAux_last_mem (sep : Char) :
    ∀ (l acc : PyStr) (c : Char), l.getLast? = some c → c ≠ sep →
      ∃ g, (splitChAux sep l acc).getLast? = some g ∧ c ∈ g := by
  intro l
  induction l with
  | nil => intro acc c h _; simp at h
  | cons x xs ih =>
    intro acc c hlast hne
    cases xs with
    | nil =>
      have hx : x = c := by simpa using hlast
      subst hx
      simp only [splitChAux, if_neg hne]
      exact ⟨(x :: acc).reverse, by simp [splitChAux], by simp⟩
    | cons y ys =>
      have hlast2 : (y :: ys).getLast? = some c := by
        rw [← List.getLast?_cons_cons]
        exact hlast
      by_cases hx : x = sep
      · obtain ⟨g, h1, h2⟩ := ih [] c hlast2 hne
        refine ⟨g, ?_, h2⟩
        have hgoal : splitChAux sep (x :: y :: ys) acc
            = acc.reverse :: splitChAux sep (y :: ys) [] := by
          simp only [splitChAux, if_pos hx]
        rcases hsp : splitChAux sep (y :: ys) [] with _ | ⟨q, qs⟩
        · exact absurd hsp (splitChAux_ne_nil sep (y :: ys) [])
        · rw [hsp] at h1 hgoal
          rw [hgoal, List.getLast?_cons_cons]
          exact h1
      · simp only [splitChAux, if_neg hx]
        exact ih (x :: acc) c hlast2 hne

theorem pySplit_last_mem (sep : Char) (l : PyStr) (c : Char)
    (hh : l.getLast? = some c) (hc : c ≠ sep) :
    ∃ g, (pySplit sep l).getLast? = some g ∧ c ∈ g :=
  splitChAux_last_mem sep l [] c hh hc

/-- Claim C10: the conversion strips the whole file content before
splitting it into lines, so whenever the stripped content is nonempty
neither the first nor the last line handed to the wrapper is blank:
blank lines at the very beginning or end of the file are discarded and
produce no wrapped line, while a blank line strictly between content
survives, as the concrete run shows. -/
theorem strip_discards_boundary_blank_lines :
    (∀ content : PyStr, (pyStrip content).isEmpty = false →
        (∀ g, (pySplitLines (pyStrip content)).head? = some g →
          isBlank g = false)
        ∧ ∀ g, (pySplitLines (pyStrip content)).getLast? = some g →
          isBlank g = false)
    ∧ processLines cLen7 364
        (pySplitLines (pyStrip ("\n\nhello\n\nworld\n").toList))
        = [("hello").toList, [], ("world").toList] := by
  constructor
  · intro content hne
    have hnil : pyStrip content ≠ [] := by
      intro h
      rw [h] at hne
      simp at hne
    constructor
    · intro g hg
      obtain ⟨c, hc⟩ : ∃ c, (pyStrip content).head? = some c := by
        cases hhd : (pyStrip content).head? with
        | some c => exact ⟨c, rfl⟩
        | none => exact absurd (List.head?_eq_none_iff.mp hhd) hnil
      have hcs := pyStrip_head?_not_space content c hc
      have hcn : c ≠ '\n' := by
        intro he
        rw [he] at hcs
        simp [pyIsSpace] at hcs
      obtain ⟨g2, hg2, hmem⟩ := pySplit_head_mem '\n' (pyStrip content) c hc hcn
      unfold pySplitLines at hg
      have hgg : g = g2 := by
        have := hg.symm.trans hg2
        exact Option.some_inj.mp this
      rw [hgg]
      exact isBlank_false_of_mem g2 c hmem hcs
    · intro g hg
      obtain ⟨c, hc⟩ : ∃ c, (pyStrip content).getLast? = some c := by
        cases hhd : (pyStrip content).getLast? with
        | some c => exact ⟨c, rfl⟩
        | none => exact absurd (List.getLast?_eq_none_iff.mp hhd) hnil
      have hcs := pyStrip_getLast?_not_space content c hc
      have hcn : c ≠ '\n' := by
        intro he
        rw [he] at hcs
        simp [pyIsSpace] at hcs
      obtain ⟨g2, hg2, hmem⟩ := pySplit_last_mem '\n' (pyStrip content) c hc hcn
      unfold pySplitLines at hg
      have hgg : g = g2 := by
        have := hg.symm.trans hg2
        exact Option.some_inj.mp this
      rw [hgg]
      exact isBlank_false_of_mem g2 c hmem hcs
  · decide

theorem strip_discards_boundary_blank_lines_witness :
    isBlank ("hi").toList = false :=
  (strip_discards_boundary_blank_lines.1 (("\nhi\n").toList) (by decide)).1
    (("hi").toList) (by decide)

end CatPrinter
